import Mathlib

/-!
Shallow embedding of the GOAP engine (goal-oriented action planner).

Embedded source files:
- `src/state.rs`   : `StateVar`, `StateOperation`, `WorldState`
  (`get` / `set` / `satisfies` / `apply`, the order-independent `Hash` impl);
- `src/actions.rs` : `Action` (`can_execute`, `apply_effect`);
- `src/goals.rs`   : `Goal` (`is_satisfied`);
- `src/planner.rs` : `PlannerError`, `Plan`, `Planner::plan` (the A* loop),
  `Planner::get_valid_transitions`, `Planner::heuristic`,
  `Planner::reconstruct_path`, and the `NodeWrapper` min-priority ordering.

Modelling choices, stated once:
- Rust `i64` is `Int` together with explicit two's-complement wrapping
  (`i64wrap`) in the arithmetic that can overflow (`distance`, `Add`,
  `Subtract`).  This is the release-profile semantics of Rust: overflowing
  arithmetic wraps; debug builds would panic at exactly the same inputs.
- `HashMap<String, StateVar>` is an association list `List (String × StateVar)`;
  a Rust-built map always has no duplicate keys, so theorems about map-level
  properties carry `Nodup` hypotheses on the key list where they need them.
- `StateVar::distance` in `src/state.rs` returns `u64` and panics on a variant
  mismatch ("Cannot calculate distance between different StateVar types"); the
  panic - a guaranteed failure, never a coercion - is modelled as `Option.none`.
  `src/planner.rs` belongs to a revision whose `State::distance` returns
  `Result` (that revision of the state module is not in the sources, only its
  caller `Planner::heuristic` is); the spec describes it as
  `distance(a, b) -> integer | TypeMismatchError`, which the same `Option`
  value models: `none` is the type-mismatch failure that `heuristic` maps to
  `PlannerError::IncompatibleStateTypes` identifying the variable.
- `f64` action costs and g/f-scores are modelled as exact rationals `ℚ`
  (`f64::INFINITY`, from the `unwrap_or(&f64::INFINITY)` defaults, is `⊤` of
  `WithTop ℚ`); IEEE-754 rounding of cost sums is out of scope.  The `u64`
  heuristic accumulator is modelled as `Nat` (its `as f64` cast likewise exact);
  no claim below depends on heuristic values anywhere near `2^53`.
- The `while let Some(..) = open_set.pop()` loop and the
  `while let Some(prev)` walk of `reconstruct_path` are modelled with explicit
  fuel; a `none` result of `planFuel` models a run of `plan` that has not
  returned (the search space can be infinite and predecessor chains cyclic, so
  the Rust loops need not terminate).
- `BinaryHeap` pops a node of minimal f-score (`NodeWrapper`'s `Ord` reverses
  `total_cmp` on `f_score`); the tie order among equal f-scores is unspecified
  in Rust, and the model resolves ties to the earliest-pushed node.
- Iteration order over a `HashMap` (in `satisfies`, `apply`, `heuristic`) is
  unspecified in Rust; the model iterates the association list in order.
-/

namespace Goap

/-- Two's-complement wrap of an integer into the `i64` range
`[-2^63, 2^63)`; the result is congruent to the input modulo `2^64`. -/
def i64wrap (n : Int) : Int := (n + 2 ^ 63) % 2 ^ 64 - 2 ^ 63

/-- Rust release-profile `i64` addition (wrapping). -/
def i64add (a b : Int) : Int := i64wrap (a + b)

/-- Rust release-profile `i64` subtraction (wrapping). -/
def i64sub (a b : Int) : Int := i64wrap (a - b)

/-- The value range of `i64`. -/
def inI64 (n : Int) : Prop := -(2 ^ 63) ≤ n ∧ n < 2 ^ 63

instance (n : Int) : Decidable (inI64 n) := by unfold inI64; infer_instance

/-- `state.rs` - `enum StateVar { Bool(bool), I64(i64), F64(i64), Enum(String) }`.
`F64` stores a fixed-point number: the floating value times 1000, rounded. -/
inductive StateVar where
  | Bool (b : Bool)
  | I64 (n : Int)
  | F64 (n : Int)
  | Enum (s : String)
deriving DecidableEq

/-- `state.rs` - `StateVar::distance`.  `some` is the returned `u64`;
`none` models the `panic!("Cannot calculate distance between different
StateVar types")` on a variant mismatch (the planner-side revision of this
function returns the same failure as a recoverable `Result` error).
The `I64`/`F64` subtraction `(*a - *b).unsigned_abs()` wraps on overflow. -/
def StateVar.distance : StateVar → StateVar → Option Nat
  | .Bool a, .Bool b => some (if a = b then 0 else 1)
  | .I64 a, .I64 b => some (i64sub a b).natAbs
  | .F64 a, .F64 b => some (i64sub a b).natAbs
  | .Enum a, .Enum b => some (if a = b then 0 else 1)
  | _, _ => none

/-- Spec vocabulary: two state variables carry the same variant. -/
def sameVariant : StateVar → StateVar → Prop
  | .Bool _, .Bool _ => True
  | .I64 _, .I64 _ => True
  | .F64 _, .F64 _ => True
  | .Enum _, .Enum _ => True
  | _, _ => False

instance (a b : StateVar) : Decidable (sameVariant a b) := by
  unfold sameVariant; cases a <;> cases b <;> infer_instance

/-- `state.rs` - `enum StateOperation { Set(StateVar), Add(i64), Subtract(i64) }`. -/
inductive StateOperation where
  | Set (v : StateVar)
  | Add (amount : Int)
  | Subtract (amount : Int)
deriving DecidableEq

/-- The `vars: HashMap<String, StateVar>` of a `WorldState`, as an
association list. -/
abbrev VarMap := List (String × StateVar)

/-- `state.rs` - `WorldState::get` (`self.vars.get(key)`). -/
def wsGet : VarMap → String → Option StateVar
  | [], _ => none
  | (k, v) :: rest, key => if k = key then some v else wsGet rest key

/-- `state.rs` - `WorldState::set` (`self.vars.insert(key, value)`):
replace the value of an existing key in place, otherwise add the entry. -/
def wsSet : VarMap → String → StateVar → VarMap
  | [], key, value => [(key, value)]
  | (k, v) :: rest, key, value =>
    if k = key then (k, value) :: rest else (k, v) :: wsSet rest key value

/-- The per-variable test inlined in `state.rs` - `WorldState::satisfies`:
`Bool`/`Enum` compare for equality, `I64`/`F64` fail exactly when
`cur < req`, mismatched variants fail. -/
def varMeets : StateVar → StateVar → Bool
  | .Bool cur, .Bool req => cur = req
  | .I64 cur, .I64 req => !(cur < req)
  | .F64 cur, .F64 req => !(cur < req)
  | .Enum cur, .Enum req => cur = req
  | _, _ => false

/-- `state.rs` - `WorldState::satisfies`: every variable the conditions
mention must be present and meet its requirement; the Rust loop returns
`false` early, which the `&&` chain reproduces. -/
def satisfies (state : VarMap) : VarMap → Bool
  | [] => true
  | (key, req) :: rest =>
    match wsGet state key with
    | none => false
    | some cur => varMeets cur req && satisfies state rest

/-- One iteration of the `state.rs` - `WorldState::apply` loop: `Set`
inserts unconditionally; `Add`/`Subtract` rewrite the value only when the
current value is `I64`/`F64`, and otherwise leave the state untouched. -/
def applyOp (m : VarMap) (key : String) : StateOperation → VarMap
  | .Set v => wsSet m key v
  | .Add amount =>
    match wsGet m key with
    | some (.I64 cur) => wsSet m key (.I64 (i64add cur amount))
    | some (.F64 cur) => wsSet m key (.F64 (i64add cur amount))
    | _ => m
  | .Subtract amount =>
    match wsGet m key with
    | some (.I64 cur) => wsSet m key (.I64 (i64sub cur amount))
    | some (.F64 cur) => wsSet m key (.F64 (i64sub cur amount))
    | _ => m

/-- `state.rs` - `WorldState::apply`, iterating the effect map. -/
def applyW (m : VarMap) : List (String × StateOperation) → VarMap
  | [] => m
  | (key, op) :: rest => applyW (applyOp m key op) rest

/-- The derived `PartialEq` of `WorldState`, i.e. `HashMap` equality:
equal sizes and every entry of the left map present in the right one. -/
def wsBeq (s t : VarMap) : Bool :=
  s.length = t.length && s.all fun p => wsGet t p.1 = some p.2

/-- The key list of a state. -/
def wsKeys (s : VarMap) : List String := s.map Prod.fst

/-- A well-formed map representation: no duplicate keys (every map a Rust
`HashMap` produces satisfies this). -/
def NodupK (s : VarMap) : Prop := (wsKeys s).Nodup

instance (s : VarMap) : Decidable (NodupK s) := by
  unfold NodupK
  exact List.nodupDecidable _

/-- Extensional equality of two map representations. -/
def LookupEq (s t : VarMap) : Prop := ∀ k, wsGet s k = wsGet t k

/-- `state.rs` - the manual `Hash for WorldState`: collect the keys, sort
them, and feed each key followed by its value to the hasher.  The hash value
is a function of this stream, so the stream is what the model exposes. -/
def hashStream (s : VarMap) : List (String × Option StateVar) :=
  ((wsKeys s).insertionSort (· ≤ ·)).map fun k => (k, wsGet s k)

/-- Spec vocabulary (claim C5): the `Add`/`Subtract` target holds a numeric
(`I64` or `F64`) value. -/
def numericTarget (m : VarMap) (key : String) : Bool :=
  match wsGet m key with
  | some (.I64 _) => true
  | some (.F64 _) => true
  | _ => false

/-- `actions.rs` - `struct Action` (name, f64 cost, preconditions world
state, effects map). -/
structure Action where
  name : String
  cost : ℚ
  preconditions : VarMap
  effects : List (String × StateOperation)
deriving DecidableEq

/-- `actions.rs` - `Action::can_execute`. -/
def Action.can_execute (a : Action) (state : VarMap) : Bool :=
  satisfies state a.preconditions

/-- `actions.rs` - `Action::apply_effect`: clone the state and apply the
effect map. -/
def Action.apply_effect (a : Action) (state : VarMap) : VarMap :=
  applyW state a.effects

/-- `goals.rs` - `struct Goal`. -/
structure Goal where
  name : String
  desired_state : VarMap
deriving DecidableEq

/-- `goals.rs` - `Goal::is_satisfied`. -/
def Goal.is_satisfied (g : Goal) (state : VarMap) : Bool :=
  satisfies state g.desired_state

/-- `planner.rs` - `enum PlannerError`.  `IncompatibleStateTypes` carries the
name of the offending variable (Rust formats it into the message
"Cannot calculate distance for variable '{key}' due to type mismatch"). -/
inductive PlannerError where
  | NoPlanFound
  | IncompatibleStateTypes (key : String)
deriving DecidableEq

/-- `planner.rs` - `struct Plan`. -/
structure Plan where
  actions : List Action
  cost : ℚ
deriving DecidableEq

instance {ε α : Type} [DecidableEq ε] [DecidableEq α] : DecidableEq (Except ε α) :=
  fun a b =>
    match a, b with
    | .ok x, .ok y => decidable_of_iff (x = y) (by simp)
    | .error x, .error y => decidable_of_iff (x = y) (by simp)
    | .ok _, .error _ => isFalse (by simp)
    | .error _, .ok _ => isFalse (by simp)

/-- `planner.rs` - `struct NodeWrapper` : a state together with its f-score
(`WithTop ℚ` models `f64` with `INFINITY`). -/
structure PNode where
  state : VarMap
  f : WithTop ℚ

/-- The planner's four search structures: the open set (here a list; the
`BinaryHeap` order lives in `popMin`), `came_from`, `action_taken` and
`g_score`. -/
structure Frontier where
  openl : List PNode
  cf : List (VarMap × VarMap)
  atk : List (VarMap × Action)
  gs : List (VarMap × WithTop ℚ)

/-- `HashMap` lookup for the `State`-keyed search maps: Rust hashes and
compares the keys as maps, which `wsBeq` models. -/
def lookupBeq {β : Type} : List (VarMap × β) → VarMap → Option β
  | [], _ => none
  | (k, v) :: rest, q => if wsBeq k q then some v else lookupBeq rest q

/-- `HashMap::insert` for the `State`-keyed search maps: replace the value
of the first matching entry (keeping the stored key, as Rust does), else
append the new entry. -/
def insertBeq {β : Type} : List (VarMap × β) → VarMap → β → List (VarMap × β)
  | [], k, v => [(k, v)]
  | (k', v') :: rest, k, v =>
    if wsBeq k' k then (k', v) :: rest else (k', v') :: insertBeq rest k v

/-- `planner.rs` - `Planner::heuristic`: sum the per-variable distances to
the goal, a fixed penalty of 1 for a missing variable; a variant mismatch
becomes `PlannerError::IncompatibleStateTypes` naming the variable. -/
def heuristic (current goal : VarMap) : Except PlannerError Nat :=
  match goal with
  | [] => .ok 0
  | (key, goalVal) :: rest =>
    match wsGet current key with
    | some currentVal =>
      match StateVar.distance currentVal goalVal with
      | none => .error (.IncompatibleStateTypes key)
      | some d => (heuristic current rest).map fun total => d + total
    | none => (heuristic current rest).map fun total => 1 + total

/-- `planner.rs` - `Planner::get_valid_transitions`: scan the action list
in order, keeping `(apply_effect(state), cost, action)` for each action
whose preconditions hold. -/
def getValidTransitions (state : VarMap) : List Action → List (VarMap × ℚ × Action)
  | [] => []
  | a :: rest =>
    if a.can_execute state then
      (a.apply_effect state, a.cost, a) :: getValidTransitions state rest
    else getValidTransitions state rest

/-- `BinaryHeap::pop` under `NodeWrapper`'s reversed ordering: remove and
return a node of minimal f-score (ties to the earliest-pushed node). -/
def popMin : List PNode → Option (PNode × List PNode)
  | [] => none
  | x :: xs =>
    match popMin xs with
    | none => some (x, [])
    | some (m, rest) => if x.f ≤ m.f then some (x, xs) else some (m, x :: rest)

/-- `planner.rs` - `Planner::reconstruct_path`: walk the predecessor links,
collecting the action taken into each node and summing its cost; the Rust
code pushes and finally reverses, the model appends.  Fuel bounds the walk:
`none` models a walk that never ends (a cyclic predecessor chain). -/
def reconstruct : Nat → List (VarMap × VarMap) → List (VarMap × Action) → VarMap →
    Option (List Action × ℚ)
  | 0, _, _, _ => none
  | fl + 1, cf, atk, current =>
    match lookupBeq cf current with
    | none => some ([], 0)
    | some prev =>
      match lookupBeq atk current with
      | some a => (reconstruct fl cf atk prev).map fun p => (p.1 ++ [a], p.2 + a.cost)
      | none => reconstruct fl cf atk prev

/-- The `for (next_state, cost, action) in transitions` body of
`planner.rs` - `Planner::plan`: the successor's heuristic is computed first
(its error aborting the whole call, via `?`), then the successor is
recorded and pushed exactly when its tentative g-score strictly improves
the recorded one (an absent record is `f64::INFINITY`, here `⊤`). -/
def expand (goal : Goal) (cur : VarMap) (currentG : WithTop ℚ) :
    List (VarMap × ℚ × Action) → Frontier → Except PlannerError Frontier
  | [], fr => .ok fr
  | (next, cost, action) :: ts, fr =>
    match heuristic next goal.desired_state with
    | .error e => .error e
    | .ok h =>
      let tentativeG := currentG + (cost : WithTop ℚ)
      if tentativeG < (lookupBeq fr.gs next).getD ⊤ then
        expand goal cur currentG ts (Frontier.mk
          (fr.openl ++ [PNode.mk next (tentativeG + ((h : ℚ) : WithTop ℚ))])
          (insertBeq fr.cf next cur)
          (insertBeq fr.atk next action)
          (insertBeq fr.gs next tentativeG))
      else expand goal cur currentG ts fr

/-- The `while let Some(..) = open_set.pop()` loop of `planner.rs` -
`Planner::plan`, with explicit fuel (`none` = the run has not returned).
Per iteration: pop a minimal-f node; a goal-satisfying node returns the
reconstructed plan; otherwise `expand` processes the valid transitions, a
heuristic failure on any generated successor aborting the whole call. -/
def planLoop (goal : Goal) (actions : List Action) :
    Nat → Frontier → Option (Except PlannerError Plan)
  | 0, _ => none
  | fuel + 1, fr =>
    match popMin fr.openl with
    | none => some (.error .NoPlanFound)
    | some (cur, rest) =>
      if goal.is_satisfied cur.state then
        match reconstruct (fr.cf.length + 1) fr.cf fr.atk cur.state with
        | none => none
        | some (acts, c) => some (.ok ⟨acts, c⟩)
      else
        let currentG : WithTop ℚ := (lookupBeq fr.gs cur.state).getD ⊤
        match
          expand goal cur.state currentG (getValidTransitions cur.state actions)
            ⟨rest, fr.cf, fr.atk, fr.gs⟩
        with
        | .error e => some (.error e)
        | .ok fr' => planLoop goal actions fuel fr'

/-- `planner.rs` - `Planner::plan` (the `Planner` struct is stateless, so
the method is a function of its three arguments): seed `g_score[initial] = 0`,
compute the initial heuristic (propagating its error), push the initial node
with `f = h(initial)` and run the loop. -/
def planFuel (fuel : Nat) (initial : VarMap) (goal : Goal) (actions : List Action) :
    Option (Except PlannerError Plan) :=
  match heuristic initial goal.desired_state with
  | .error e => some (.error e)
  | .ok h0 =>
    planLoop goal actions fuel
      ⟨[⟨initial, ((h0 : ℚ) : WithTop ℚ)⟩], [], [], [(initial, ((0 : ℚ) : WithTop ℚ))]⟩

/-- Spec vocabulary (claims C1, C2): an action sequence is executable from a
state when each action's preconditions are satisfied by the state it is
applied to. -/
def validSeq (state : VarMap) : List Action → Bool
  | [] => true
  | a :: rest => a.can_execute state && validSeq (a.apply_effect state) rest

/-- Spec vocabulary: the state an action sequence ends in. -/
def runActions (state : VarMap) : List Action → VarMap
  | [] => state
  | a :: rest => runActions (a.apply_effect state) rest

/-- Spec vocabulary: the sum of the costs of a list of actions. -/
def costSum (acts : List Action) : ℚ := (acts.map Action.cost).sum

/-- Spec vocabulary (claim C3): the per-variable satisfaction requirement as
the spec words it - same variant, exact equality for `Bool`/`Text`,
`current ≥ required` for `Integer`/`Decimal`. -/
def meets : StateVar → StateVar → Prop
  | .Bool cur, .Bool req => cur = req
  | .I64 cur, .I64 req => req ≤ cur
  | .F64 cur, .F64 req => req ≤ cur
  | .Enum cur, .Enum req => cur = req
  | _, _ => False

/-- Spec vocabulary (claim C7): the states reachable from the initial state
by executing applicable actions from the action list. -/
inductive Reach (init : VarMap) (actions : List Action) : VarMap → Prop where
  | refl : Reach init actions init
  | step {s : VarMap} {a : Action} : Reach init actions s → a ∈ actions →
      a.can_execute s = true → Reach init actions (a.apply_effect s)

/-- A search map keyed by states has well-formed keys. -/
def MWFk {β : Type} (m : List (VarMap × β)) : Prop := ∀ p ∈ m, NodupK p.1

/-- A state is a key of the predecessor map. -/
def InDom (cf : List (VarMap × VarMap)) (s : VarMap) : Prop :=
  ∃ p, lookupBeq cf s = some p

/-- Invariant of `came_from`/`action_taken`: every recorded predecessor
carries an action of the library that is executable at the predecessor and
produces the keyed state. -/
def CFInv (actions : List Action) (cf : List (VarMap × VarMap))
    (atk : List (VarMap × Action)) : Prop :=
  ∀ s p, NodupK s → lookupBeq cf s = some p →
    NodupK p ∧ ∃ a, lookupBeq atk s = some a ∧ a ∈ actions ∧
      a.can_execute p = true ∧ LookupEq (a.apply_effect p) s

/-- Invariant: every predecessor chain continues or has reached the initial
state. -/
def CFInit (init : VarMap) (cf : List (VarMap × VarMap)) : Prop :=
  ∀ s p, NodupK s → lookupBeq cf s = some p → (LookupEq p init ∨ InDom cf p)

/-- Invariant of the open set: every queued state is well-formed and is the
initial state or a key of `came_from`. -/
def OpenWF (init : VarMap) (cf : List (VarMap × VarMap)) (openl : List PNode) : Prop :=
  ∀ n ∈ openl, NodupK n.state ∧ (LookupEq n.state init ∨ InDom cf n.state)

/-- The conjunction of all search invariants of a `Frontier`. -/
def FrInv (init : VarMap) (actions : List Action) (fr : Frontier) : Prop :=
  MWFk fr.cf ∧ MWFk fr.atk ∧ CFInv actions fr.cf fr.atk ∧ CFInit init fr.cf ∧
    OpenWF init fr.cf fr.openl

/-! Concrete scenario data used by the witnesses and counterexamples below
(spec section 8 scenarios, plus a deliberately inadmissible-heuristic action
set). -/

/-- Scenario A initial state: `{has_axe: true, has_wood: false}`. -/
def wsA : VarMap := [("has_axe", .Bool true), ("has_wood", .Bool false)]

/-- Scenario A goal: `{has_wood: true}`. -/
def goalA : Goal := ⟨"get_wood", [("has_wood", .Bool true)]⟩

/-- Scenario A action `move_to_tree` (cost 1, no precondition, sets
`at_tree = true`). -/
def moveA : Action := ⟨"move_to_tree", 1, [], [("at_tree", .Set (.Bool true))]⟩

/-- Scenario A action `chop_tree` (cost 2, requires `has_axe` and `at_tree`,
sets `has_wood = true`). -/
def chopA : Action :=
  ⟨"chop_tree", 2, [("has_axe", .Bool true), ("at_tree", .Bool true)],
    [("has_wood", .Set (.Bool true))]⟩

/-- Suboptimality example, initial state `{x: 0}`. -/
def wsCE : VarMap := [("x", .I64 0)]

/-- Suboptimality example, goal `{x ≥ 10}`. -/
def goalCE : Goal := ⟨"reach_ten", [("x", .I64 10)]⟩

/-- Expensive one-step action: cost 10, sets `x = 10` exactly. -/
def exactCE : Action := ⟨"exact_step", 10, [], [("x", .Set (.I64 10))]⟩

/-- Cheap overshooting action: cost 1, adds 100 to `x`. -/
def overCE : Action := ⟨"overshoot", 1, [], [("x", .Add 100)]⟩

/-- Scenario C initial state: `{has_wood: false}`. -/
def wsC : VarMap := [("has_wood", .Bool false)]

/-- The single state reachable from `wsC` besides itself. -/
def wsC1 : VarMap := [("has_wood", .Bool true)]

/-- Scenario C goal: `{has_gold: true}`. -/
def goalC : Goal := ⟨"get_gold", [("has_gold", .Bool true)]⟩

/-- Scenario C action `get_wood` (sets `has_wood = true`). -/
def getWoodC : Action := ⟨"get_wood", 1, [], [("has_wood", .Set (.Bool true))]⟩

/-- Scenario D goal: requires `value` as text. -/
def goalD : Goal := ⟨"text_value", [("value", .Enum "gold")]⟩

/-- Scenario D action: produces `value` as an integer. -/
def actD : Action := ⟨"make_value", 1, [], [("value", .Set (.I64 5))]⟩

end Goap

namespace Goap

theorem i64wrap_eq (n : Int) (h1 : -(2 ^ 63) ≤ n) (h2 : n < 2 ^ 63) : i64wrap n = n := by
  unfold i64wrap
  omega

theorem varMeets_iff (cur req : StateVar) : varMeets cur req = true ↔ meets cur req := by
  cases cur <;> cases req <;> simp [varMeets, meets]

theorem wsGet_wsSet (m : VarMap) (key : String) (v : StateVar) (q : String) :
    wsGet (wsSet m key v) q = if key = q then some v else wsGet m q := by
  induction m with
  | nil => simp [wsSet, wsGet]
  | cons p rest ih =>
    obtain ⟨k, w⟩ := p
    by_cases hk : k = key
    · subst hk
      by_cases hq : k = q <;> simp [wsSet, wsGet, hq]
    · have hk2 : ¬ key = k := fun h => hk h.symm
      by_cases hq : k = q
      · subst hq
        simp [wsSet, hk, wsGet, hk2]
      · simp [wsSet, hk, wsGet, hq, ih]

theorem wsKeys_cons (k : String) (w : StateVar) (rest : VarMap) :
    wsKeys ((k, w) :: rest) = k :: wsKeys rest := rfl

theorem wsKeys_wsSet_of_mem (m : VarMap) (key : String) (v : StateVar)
    (h : key ∈ wsKeys m) : wsKeys (wsSet m key v) = wsKeys m := by
  induction m with
  | nil => simp [wsKeys] at h
  | cons p rest ih =>
    obtain ⟨k, w⟩ := p
    by_cases hk : k = key
    · simp [wsSet, hk, wsKeys]
    · have hmem : key ∈ wsKeys rest := by
        rw [wsKeys_cons] at h
        rcases List.mem_cons.mp h with h' | h'
        · exact absurd h'.symm hk
        · exact h'
      rw [wsKeys_cons] at *
      simp only [wsSet, if_neg hk]
      rw [wsKeys_cons, ih hmem]

theorem wsKeys_wsSet_of_not_mem (m : VarMap) (key : String) (v : StateVar)
    (h : key ∉ wsKeys m) : wsKeys (wsSet m key v) = wsKeys m ++ [key] := by
  induction m with
  | nil => simp [wsSet, wsKeys]
  | cons p rest ih =>
    obtain ⟨k, w⟩ := p
    rw [wsKeys_cons] at h
    have hk : ¬ k = key := fun hkk => h (by rw [hkk]; exact List.mem_cons_self _ _)
    have hrest : key ∉ wsKeys rest := fun hmem => h (List.mem_cons_of_mem _ hmem)
    simp only [wsSet, if_neg hk]
    rw [wsKeys_cons, wsKeys_cons, ih hrest]
    rfl

theorem NodupK_wsSet (m : VarMap) (key : String) (v : StateVar) (h : NodupK m) :
    NodupK (wsSet m key v) := by
  by_cases hmem : key ∈ wsKeys m
  · unfold NodupK
    rw [wsKeys_wsSet_of_mem m key v hmem]
    exact h
  · unfold NodupK
    rw [wsKeys_wsSet_of_not_mem m key v hmem]
    simp [List.nodup_append]
    exact ⟨h, hmem⟩

theorem satisfies_iff_meets (s c : VarMap) :
    satisfies s c = true ↔
      ∀ k req, (k, req) ∈ c → ∃ cur, wsGet s k = some cur ∧ meets cur req := by
  induction c with
  | nil => simp [satisfies]
  | cons p rest ih =>
    obtain ⟨key, req⟩ := p
    rcases hget : wsGet s key with _ | cur
    · constructor
      · intro h
        unfold satisfies at h
        rw [hget] at h
        cases h
      · intro h
        obtain ⟨cur, hcur, _⟩ := h key req (List.mem_cons_self _ _)
        rw [hget] at hcur
        cases hcur
    · constructor
      · intro h k r hmem
        unfold satisfies at h
        rw [hget] at h
        simp only [Bool.and_eq_true] at h
        rcases List.mem_cons.mp hmem with heq | hmem'
        · simp only [Prod.mk.injEq] at heq
          obtain ⟨hk, hr⟩ := heq
          subst hk
          subst hr
          exact ⟨cur, hget, (varMeets_iff cur _).mp h.1⟩
        · exact ih.mp h.2 k r hmem'
      · intro h
        unfold satisfies
        rw [hget]
        simp only [Bool.and_eq_true]
        obtain ⟨cur', hcur', hmeet⟩ := h key req (List.mem_cons_self _ _)
        have hc : cur' = cur := by
          rw [hget] at hcur'
          exact (Option.some.inj hcur').symm
        subst hc
        refine ⟨(varMeets_iff cur' req).mpr hmeet, ih.mpr ?_⟩
        intro k r hm
        exact h k r (List.mem_cons_of_mem _ hm)

theorem satisfies_congr (s t : VarMap) (h : LookupEq s t) (c : VarMap) :
    satisfies s c = satisfies t c := by
  induction c with
  | nil => rfl
  | cons p rest ih =>
    obtain ⟨key, req⟩ := p
    unfold satisfies
    rw [h key, ih]

end Goap

namespace Goap

theorem lookupEq_refl (s : VarMap) : LookupEq s s := fun _ => rfl

theorem lookupEq_symm {s t : VarMap} (h : LookupEq s t) : LookupEq t s :=
  fun k => (h k).symm

theorem lookupEq_trans {s t u : VarMap} (h1 : LookupEq s t) (h2 : LookupEq t u) :
    LookupEq s u := fun k => (h1 k).trans (h2 k)

theorem lookupEq_wsSet {s t : VarMap} (h : LookupEq s t) (key : String) (v : StateVar) :
    LookupEq (wsSet s key v) (wsSet t key v) := by
  intro q
  rw [wsGet_wsSet, wsGet_wsSet, h q]

theorem applyOp_congr {s t : VarMap} (h : LookupEq s t) (key : String) (op : StateOperation) :
    LookupEq (applyOp s key op) (applyOp t key op) := by
  cases op with
  | Set v => exact lookupEq_wsSet h key v
  | Add n =>
    unfold applyOp
    rw [h key]
    rcases wsGet t key with _ | cur
    · exact h
    · cases cur with
      | I64 c => exact lookupEq_wsSet h key _
      | F64 c => exact lookupEq_wsSet h key _
      | Bool b => exact h
      | Enum e => exact h
  | Subtract n =>
    unfold applyOp
    rw [h key]
    rcases wsGet t key with _ | cur
    · exact h
    · cases cur with
      | I64 c => exact lookupEq_wsSet h key _
      | F64 c => exact lookupEq_wsSet h key _
      | Bool b => exact h
      | Enum e => exact h

theorem applyW_congr {s t : VarMap} (h : LookupEq s t) (ch : List (String × StateOperation)) :
    LookupEq (applyW s ch) (applyW t ch) := by
  induction ch generalizing s t with
  | nil => exact h
  | cons p rest ih =>
    obtain ⟨key, op⟩ := p
    exact ih (applyOp_congr h key op)

theorem NodupK_applyOp (m : VarMap) (key : String) (op : StateOperation) (h : NodupK m) :
    NodupK (applyOp m key op) := by
  cases op with
  | Set v => exact NodupK_wsSet m key v h
  | Add n =>
    unfold applyOp
    rcases wsGet m key with _ | cur
    · exact h
    · cases cur <;> first | exact h | exact NodupK_wsSet m key _ h
  | Subtract n =>
    unfold applyOp
    rcases wsGet m key with _ | cur
    · exact h
    · cases cur <;> first | exact h | exact NodupK_wsSet m key _ h

theorem NodupK_applyW (m : VarMap) (ch : List (String × StateOperation)) (h : NodupK m) :
    NodupK (applyW m ch) := by
  induction ch generalizing m with
  | nil => exact h
  | cons p rest ih =>
    obtain ⟨key, op⟩ := p
    exact ih _ (NodupK_applyOp m key op h)

theorem apply_effect_congr (a : Action) {s t : VarMap} (h : LookupEq s t) :
    LookupEq (a.apply_effect s) (a.apply_effect t) :=
  applyW_congr h a.effects

theorem NodupK_apply_effect (a : Action) (m : VarMap) (h : NodupK m) :
    NodupK (a.apply_effect m) :=
  NodupK_applyW m a.effects h

theorem can_execute_congr (a : Action) {s t : VarMap} (h : LookupEq s t) :
    a.can_execute s = a.can_execute t :=
  satisfies_congr s t h a.preconditions

theorem applyOp_add_noop (m : VarMap) (key : String) (n : Int)
    (h : numericTarget m key = false) : applyOp m key (.Add n) = m := by
  unfold applyOp
  unfold numericTarget at h
  rcases hv : wsGet m key with _ | cur
  · rfl
  · rw [hv] at h
    cases cur with
    | I64 c => exact Bool.noConfusion (show true = false from h)
    | F64 c => exact Bool.noConfusion (show true = false from h)
    | Bool b => rfl
    | Enum e => rfl

theorem applyOp_subtract_noop (m : VarMap) (key : String) (n : Int)
    (h : numericTarget m key = false) : applyOp m key (.Subtract n) = m := by
  unfold applyOp
  unfold numericTarget at h
  rcases hv : wsGet m key with _ | cur
  · rfl
  · rw [hv] at h
    cases cur with
    | I64 c => exact Bool.noConfusion (show true = false from h)
    | F64 c => exact Bool.noConfusion (show true = false from h)
    | Bool b => rfl
    | Enum e => rfl

theorem applyOp_set_get (m : VarMap) (key : String) (v : StateVar) :
    wsGet (applyOp m key (.Set v)) key = some v := by
  unfold applyOp
  rw [wsGet_wsSet]
  simp

theorem applyOp_set_get_other (m : VarMap) (key : String) (v : StateVar) (q : String)
    (h : ¬ key = q) : wsGet (applyOp m key (.Set v)) q = wsGet m q := by
  unfold applyOp
  rw [wsGet_wsSet]
  simp [h]

theorem wsGet_applyOp_ne_none_iff (m : VarMap) (key : String) (op : StateOperation)
    (q : String) :
    wsGet (applyOp m key op) q ≠ none ↔
      wsGet m q ≠ none ∨ (q = key ∧ ∃ v, op = .Set v) := by
  cases op with
  | Set v =>
    unfold applyOp
    rw [wsGet_wsSet]
    by_cases hq : key = q
    · simp [hq]
    · simp [hq]
      intro h
      exact absurd h.symm hq
  | Add n =>
    have hnoset : ¬ ∃ v, StateOperation.Add n = StateOperation.Set v := by simp
    unfold applyOp
    rcases hv : wsGet m key with _ | cur
    · simp [hnoset]
    · cases cur with
      | I64 c =>
        rw [wsGet_wsSet]
        by_cases hq : key = q
        · subst hq
          simp [hv, hnoset]
        · simp [hq, hnoset]
      | F64 c =>
        rw [wsGet_wsSet]
        by_cases hq : key = q
        · subst hq
          simp [hv, hnoset]
        · simp [hq, hnoset]
      | Bool b => simp [hnoset]
      | Enum e => simp [hnoset]
  | Subtract n =>
    have hnoset : ¬ ∃ v, StateOperation.Subtract n = StateOperation.Set v := by simp
    unfold applyOp
    rcases hv : wsGet m key with _ | cur
    · simp [hnoset]
    · cases cur with
      | I64 c =>
        rw [wsGet_wsSet]
        by_cases hq : key = q
        · subst hq
          simp [hv, hnoset]
        · simp [hq, hnoset]
      | F64 c =>
        rw [wsGet_wsSet]
        by_cases hq : key = q
        · subst hq
          simp [hv, hnoset]
        · simp [hq, hnoset]
      | Bool b => simp [hnoset]
      | Enum e => simp [hnoset]

theorem wsGet_applyW_ne_none_iff (m : VarMap) (ch : List (String × StateOperation))
    (q : String) :
    wsGet (applyW m ch) q ≠ none ↔
      wsGet m q ≠ none ∨ ∃ v, (q, StateOperation.Set v) ∈ ch := by
  induction ch generalizing m with
  | nil => simp [applyW]
  | cons p rest ih =>
    obtain ⟨key, op⟩ := p
    show wsGet (applyW (applyOp m key op) rest) q ≠ none ↔ _
    rw [ih (applyOp m key op), wsGet_applyOp_ne_none_iff]
    constructor
    · rintro ((h | ⟨hq, v, hv⟩) | ⟨v, hv⟩)
      · exact Or.inl h
      · refine Or.inr ⟨v, ?_⟩
        rw [hq, hv]
        exact List.mem_cons_self _ _
      · exact Or.inr ⟨v, List.mem_cons_of_mem _ hv⟩
    · rintro (h | ⟨v, hv⟩)
      · exact Or.inl (Or.inl h)
      · rcases List.mem_cons.mp hv with heq | hmem
        · simp only [Prod.mk.injEq] at heq
          exact Or.inl (Or.inr ⟨heq.1, v, heq.2.symm⟩)
        · exact Or.inr ⟨v, hmem⟩

end Goap

namespace Goap

theorem NodupK_cons {k : String} {v : StateVar} {rest : VarMap} :
    NodupK ((k, v) :: rest) ↔ k ∉ wsKeys rest ∧ NodupK rest := by
  unfold NodupK
  rw [wsKeys_cons]
  exact List.nodup_cons

theorem wsGet_eq_some_mem {m : VarMap} {k : String} {v : StateVar}
    (h : wsGet m k = some v) : (k, v) ∈ m := by
  induction m with
  | nil => cases h
  | cons p rest ih =>
    obtain ⟨k', v'⟩ := p
    unfold wsGet at h
    by_cases hk : k' = k
    · rw [if_pos hk] at h
      have hv := Option.some.inj h
      subst hk
      rw [← hv]
      exact List.mem_cons_self _ _
    · rw [if_neg hk] at h
      exact List.mem_cons_of_mem _ (ih h)

theorem mem_wsGet {m : VarMap} (hm : NodupK m) {k : String} {v : StateVar}
    (h : (k, v) ∈ m) : wsGet m k = some v := by
  induction m with
  | nil => cases h
  | cons p rest ih =>
    obtain ⟨k', v'⟩ := p
    obtain ⟨hnotin, hrest⟩ := NodupK_cons.mp hm
    rcases List.mem_cons.mp h with heq | hmem
    · simp only [Prod.mk.injEq] at heq
      obtain ⟨h1, h2⟩ := heq
      unfold wsGet
      rw [if_pos h1.symm, h2]
    · have hk : ¬ k' = k := by
        intro he
        subst he
        exact hnotin (List.mem_map_of_mem Prod.fst hmem)
      unfold wsGet
      rw [if_neg hk]
      exact ih hrest hmem

theorem wsGet_ne_none_iff (m : VarMap) (k : String) :
    wsGet m k ≠ none ↔ k ∈ wsKeys m := by
  induction m with
  | nil => simp [wsGet, wsKeys]
  | cons p rest ih =>
    obtain ⟨k', v'⟩ := p
    unfold wsGet
    rw [wsKeys_cons]
    by_cases hk : k' = k
    · simp [hk]
    · rw [if_neg hk, List.mem_cons]
      simp only [ih]
      constructor
      · exact Or.inr
      · rintro (h | h)
        · exact absurd h.symm hk
        · exact h

theorem wsKeys_length (m : VarMap) : (wsKeys m).length = m.length :=
  List.length_map _ _

theorem length_eq_of_lookupEq {s t : VarMap} (hs : NodupK s) (ht : NodupK t)
    (h : LookupEq s t) : s.length = t.length := by
  have hkeys : ∀ k, k ∈ wsKeys s ↔ k ∈ wsKeys t := fun k => by
    rw [← wsGet_ne_none_iff, ← wsGet_ne_none_iff, h k]
  have hfin : (wsKeys s).toFinset = (wsKeys t).toFinset := by
    apply Finset.ext
    intro k
    simp only [List.mem_toFinset]
    exact hkeys k
  have hs' := List.toFinset_card_of_nodup hs
  have ht' := List.toFinset_card_of_nodup ht
  rw [← wsKeys_length s, ← wsKeys_length t, ← hs', ← ht', hfin]

theorem wsBeq_of_lookupEq {s t : VarMap} (hs : NodupK s) (ht : NodupK t)
    (h : LookupEq s t) : wsBeq s t = true := by
  unfold wsBeq
  simp only [Bool.and_eq_true, decide_eq_true_eq, List.all_eq_true]
  refine ⟨length_eq_of_lookupEq hs ht h, ?_⟩
  intro p hp
  have hv : wsGet s p.1 = some p.2 := mem_wsGet hs (by
    obtain ⟨k, v⟩ := p
    exact hp)
  rw [← h p.1]
  exact hv

theorem lookupEq_of_wsBeq {s t : VarMap} (hs : NodupK s) (ht : NodupK t)
    (h : wsBeq s t = true) : LookupEq s t := by
  unfold wsBeq at h
  simp only [Bool.and_eq_true, decide_eq_true_eq, List.all_eq_true] at h
  obtain ⟨hlen, hall⟩ := h
  have hsub : wsKeys s ⊆ wsKeys t := by
    intro x hx
    have hne := (wsGet_ne_none_iff s x).mpr hx
    rcases hv : wsGet s x with _ | v
    · exact absurd hv hne
    · have hw := hall (x, v) (wsGet_eq_some_mem hv)
      rw [← wsGet_ne_none_iff]
      intro hcon
      rw [hcon] at hw
      cases hw
  have hfin : (wsKeys s).toFinset = (wsKeys t).toFinset := by
    apply Finset.eq_of_subset_of_card_le
    · intro x hx
      rw [List.mem_toFinset] at hx ⊢
      exact hsub hx
    · rw [List.toFinset_card_of_nodup hs, List.toFinset_card_of_nodup ht,
        wsKeys_length, wsKeys_length, hlen]
  intro k
  rcases hv : wsGet s k with _ | v
  · rcases hw : wsGet t k with _ | w
    · rfl
    · have hkt : k ∈ wsKeys t := (wsGet_ne_none_iff t k).mp (by rw [hw]; simp)
      have hks : k ∈ wsKeys s := by
        rw [← List.mem_toFinset, ← hfin, List.mem_toFinset] at hkt
        exact hkt
      have := (wsGet_ne_none_iff s k).mpr hks
      exact absurd hv this
  · have hw := hall (k, v) (wsGet_eq_some_mem hv)
    exact hw.symm

end Goap


namespace Goap

theorem hashStream_eq_of_lookupEq {s t : VarMap} (hs : NodupK s) (ht : NodupK t)
    (h : LookupEq s t) : hashStream s = hashStream t := by
  haveI : IsAntisymm String (· ≤ ·) := ⟨fun _ _ h1 h2 => le_antisymm h1 h2⟩
  have hperm : (wsKeys s).Perm (wsKeys t) := by
    refine (List.perm_ext_iff_of_nodup hs ht).mpr ?_
    intro k
    rw [← wsGet_ne_none_iff, ← wsGet_ne_none_iff, h k]
  have hsorted : (wsKeys s).insertionSort (· ≤ ·) = (wsKeys t).insertionSort (· ≤ ·) := by
    have hss : List.Sorted (· ≤ ·) ((wsKeys s).insertionSort (· ≤ ·)) :=
      List.sorted_insertionSort _ _
    have hst : List.Sorted (· ≤ ·) ((wsKeys t).insertionSort (· ≤ ·)) :=
      List.sorted_insertionSort _ _
    have hpp : ((wsKeys s).insertionSort (· ≤ ·)).Perm ((wsKeys t).insertionSort (· ≤ ·)) :=
      (List.perm_insertionSort _ _).trans (hperm.trans (List.perm_insertionSort _ _).symm)
    exact List.eq_of_perm_of_sorted hpp hss hst
  unfold hashStream
  rw [hsorted]
  apply List.map_congr_left
  intro k _
  rw [h k]

theorem i64wrap_natAbs (d : Int) (h1 : -(2 ^ 64) < d) (h2 : d < 2 ^ 64)
    (h3 : d.natAbs ≤ 2 ^ 63) : (i64wrap d).natAbs = d.natAbs := by
  unfold i64wrap
  omega

theorem distance_self (a : StateVar) : StateVar.distance a a = some 0 := by
  have hz : i64wrap 0 = 0 := i64wrap_eq 0 (by norm_num) (by norm_num)
  cases a <;> simp [StateVar.distance, i64sub, hz]

theorem distance_none_iff (a b : StateVar) :
    StateVar.distance a b = none ↔ ¬ sameVariant a b := by
  cases a <;> cases b <;> simp [StateVar.distance, sameVariant]

theorem distance_int_exact (x y : Int) (hx : inI64 x) (hy : inI64 y)
    (hd : (x - y).natAbs ≤ 2 ^ 63) :
    StateVar.distance (.I64 x) (.I64 y) = some (x - y).natAbs := by
  show some ((i64wrap (x - y)).natAbs) = some ((x - y).natAbs)
  rw [i64wrap_natAbs (x - y)
    (by obtain ⟨a1, a2⟩ := hx; obtain ⟨b1, b2⟩ := hy; omega)
    (by obtain ⟨a1, a2⟩ := hx; obtain ⟨b1, b2⟩ := hy; omega) hd]

theorem distance_f64_exact (x y : Int) (hx : inI64 x) (hy : inI64 y)
    (hd : (x - y).natAbs ≤ 2 ^ 63) :
    StateVar.distance (.F64 x) (.F64 y) = some (x - y).natAbs := by
  show some ((i64wrap (x - y)).natAbs) = some ((x - y).natAbs)
  rw [i64wrap_natAbs (x - y)
    (by obtain ⟨a1, a2⟩ := hx; obtain ⟨b1, b2⟩ := hy; omega)
    (by obtain ⟨a1, a2⟩ := hx; obtain ⟨b1, b2⟩ := hy; omega) hd]

theorem except_map_eq_error {α β ε : Type} (f : α → β) (x : Except ε α) (e : ε) :
    x.map f = .error e ↔ x = .error e := by
  cases x <;> simp [Except.map]

theorem except_map_eq_ok {α β ε : Type} (f : α → β) (x : Except ε α) :
    (∃ b, x.map f = .ok b) ↔ ∃ a, x = .ok a := by
  cases x <;> simp [Except.map]

theorem heuristic_cons (s : VarMap) (key : String) (gv : StateVar)
    (rest : VarMap) :
    heuristic s ((key, gv) :: rest) =
      match wsGet s key with
      | some cv =>
        match StateVar.distance cv gv with
        | none => .error (.IncompatibleStateTypes key)
        | some d => (heuristic s rest).map fun total => d + total
      | none => (heuristic s rest).map fun total => 1 + total := rfl

theorem heuristic_error_mismatch {s g : VarMap} {k : String}
    (h : heuristic s g = .error (.IncompatibleStateTypes k)) :
    ∃ req cur, (k, req) ∈ g ∧ wsGet s k = some cur ∧ ¬ sameVariant cur req := by
  induction g with
  | nil => cases h
  | cons p rest ih =>
    obtain ⟨key, gv⟩ := p
    rw [heuristic_cons] at h
    rcases hget : wsGet s key with _ | cv
    · simp only [hget] at h
      rw [except_map_eq_error] at h
      obtain ⟨req, cur, hmem, hcur, hsv⟩ := ih h
      exact ⟨req, cur, List.mem_cons_of_mem _ hmem, hcur, hsv⟩
    · simp only [hget] at h
      rcases hd : StateVar.distance cv gv with _ | d
      · simp only [hd] at h
        have hk : key = k := by
          injection h with h'
          injection h'
        subst hk
        exact ⟨gv, cv, List.mem_cons_self _ _, hget, (distance_none_iff cv gv).mp hd⟩
      · simp only [hd] at h
        rw [except_map_eq_error] at h
        obtain ⟨req, cur, hmem, hcur, hsv⟩ := ih h
        exact ⟨req, cur, List.mem_cons_of_mem _ hmem, hcur, hsv⟩

theorem heuristic_ok_iff (s g : VarMap) :
    (∃ n, heuristic s g = .ok n) ↔
      ∀ k req cur, (k, req) ∈ g → wsGet s k = some cur → sameVariant cur req := by
  induction g with
  | nil => simp [heuristic]
  | cons p rest ih =>
    obtain ⟨key, gv⟩ := p
    rw [heuristic_cons]
    rcases hget : wsGet s key with _ | cv
    · simp only [hget]
      rw [except_map_eq_ok, ih]
      constructor
      · intro h k req cur hmem hcur
        rcases List.mem_cons.mp hmem with heq | hmem'
        · simp only [Prod.mk.injEq] at heq
          rw [heq.1] at hcur
          rw [hget] at hcur
          cases hcur
        · exact h k req cur hmem' hcur
      · intro h k req cur hmem hcur
        exact h k req cur (List.mem_cons_of_mem _ hmem) hcur
    · simp only [hget]
      rcases hd : StateVar.distance cv gv with _ | d
      · simp only [hd]
        constructor
        · rintro ⟨n, hn⟩
          cases hn
        · intro h
          have hsv := h key gv cv (List.mem_cons_self _ _) hget
          rw [distance_none_iff] at hd
          exact absurd hsv hd
      · simp only [hd]
        rw [except_map_eq_ok, ih]
        constructor
        · intro h k req cur hmem hcur
          rcases List.mem_cons.mp hmem with heq | hmem'
          · simp only [Prod.mk.injEq] at heq
            obtain ⟨h1, h2⟩ := heq
            subst h1
            subst h2
            rw [hget] at hcur
            have hcv : cv = cur := Option.some.inj hcur
            subst hcv
            by_contra hcon
            rw [← distance_none_iff] at hcon
            rw [hcon] at hd
            cases hd
          · exact h k req cur hmem' hcur
        · intro h k req cur hmem hcur
          exact h k req cur (List.mem_cons_of_mem _ hmem) hcur

theorem planFuel_init_error (fuel : Nat) (init : VarMap) (goal : Goal)
    (actions : List Action) (e : PlannerError)
    (h : heuristic init goal.desired_state = .error e) :
    planFuel fuel init goal actions = some (.error e) := by
  unfold planFuel
  rw [h]

end Goap

namespace Goap

theorem wsBeq_self {s : VarMap} (hs : NodupK s) : wsBeq s s = true :=
  wsBeq_of_lookupEq hs hs (lookupEq_refl s)

theorem MWFk_insertBeq {β : Type} {m : List (VarMap × β)} {k : VarMap} {v : β}
    (hm : MWFk m) (hk : NodupK k) : MWFk (insertBeq m k v) := by
  induction m with
  | nil =>
    intro p hp
    rcases List.mem_singleton.mp hp with rfl
    exact hk
  | cons q rest ih =>
    obtain ⟨k', v'⟩ := q
    have hk' : NodupK k' := hm (k', v') (List.mem_cons_self _ _)
    have hrest : MWFk rest := fun p hp => hm p (List.mem_cons_of_mem _ hp)
    unfold insertBeq
    by_cases hb : wsBeq k' k = true
    · rw [if_pos hb]
      intro p hp
      rcases List.mem_cons.mp hp with rfl | hp'
      · exact hk'
      · exact hrest p hp'
    · rw [if_neg hb]
      intro p hp
      rcases List.mem_cons.mp hp with rfl | hp'
      · exact hk'
      · exact ih hrest p hp'

theorem lookupBeq_insertBeq_eq {β : Type} {m : List (VarMap × β)} {k q : VarMap} {v : β}
    (hm : MWFk m) (hk : NodupK k) (hq : NodupK q) (heq : LookupEq q k) :
    lookupBeq (insertBeq m k v) q = some v := by
  induction m with
  | nil =>
    unfold insertBeq lookupBeq
    rw [if_pos (wsBeq_of_lookupEq hk hq (lookupEq_symm heq))]
  | cons p rest ih =>
    obtain ⟨k', v'⟩ := p
    have hk' : NodupK k' := hm (k', v') (List.mem_cons_self _ _)
    have hrest : MWFk rest := fun x hx => hm x (List.mem_cons_of_mem _ hx)
    unfold insertBeq
    by_cases hb : wsBeq k' k = true
    · rw [if_pos hb]
      unfold lookupBeq
      have hkk : LookupEq k' k := lookupEq_of_wsBeq hk' hk hb
      have : LookupEq k' q := lookupEq_trans hkk (lookupEq_symm heq)
      rw [if_pos (wsBeq_of_lookupEq hk' hq this)]
    · rw [if_neg hb]
      unfold lookupBeq
      have hne : ¬ wsBeq k' q = true := by
        intro hcon
        have h1 : LookupEq k' q := lookupEq_of_wsBeq hk' hq hcon
        have h2 : LookupEq k' k := lookupEq_trans h1 heq
        exact hb (wsBeq_of_lookupEq hk' hk h2)
      rw [if_neg hne]
      exact ih hrest

theorem lookupBeq_insertBeq_ne {β : Type} {m : List (VarMap × β)} {k q : VarMap} {v : β}
    (hm : MWFk m) (hk : NodupK k) (hq : NodupK q) (hne : ¬ LookupEq q k) :
    lookupBeq (insertBeq m k v) q = lookupBeq m q := by
  induction m with
  | nil =>
    unfold insertBeq lookupBeq
    have : ¬ wsBeq k q = true := by
      intro hcon
      exact hne (lookupEq_symm (lookupEq_of_wsBeq hk hq hcon))
    rw [if_neg this]
    rfl
  | cons p rest ih =>
    obtain ⟨k', v'⟩ := p
    have hk' : NodupK k' := hm (k', v') (List.mem_cons_self _ _)
    have hrest : MWFk rest := fun x hx => hm x (List.mem_cons_of_mem _ hx)
    unfold insertBeq
    by_cases hb : wsBeq k' k = true
    · rw [if_pos hb]
      unfold lookupBeq
      have hne' : ¬ wsBeq k' q = true := by
        intro hcon
        have h1 : LookupEq q k' := lookupEq_symm (lookupEq_of_wsBeq hk' hq hcon)
        have h2 : LookupEq k' k := lookupEq_of_wsBeq hk' hk hb
        exact hne (lookupEq_trans h1 h2)
      rw [if_neg hne', if_neg hne']
    · rw [if_neg hb]
      unfold lookupBeq
      by_cases hq' : wsBeq k' q = true
      · rw [if_pos hq', if_pos hq']
      · rw [if_neg hq', if_neg hq']
        exact ih hrest

theorem lookupBeq_insertBeq_cases {β : Type} {m : List (VarMap × β)} {k q : VarMap}
    {v p : β} (hm : MWFk m) (hk : NodupK k) (hq : NodupK q)
    (h : lookupBeq (insertBeq m k v) q = some p) :
    (LookupEq q k ∧ p = v) ∨ (¬ LookupEq q k ∧ lookupBeq m q = some p) := by
  by_cases heq : LookupEq q k
  · rw [lookupBeq_insertBeq_eq hm hk hq heq] at h
    exact Or.inl ⟨heq, (Option.some.inj h).symm⟩
  · rw [lookupBeq_insertBeq_ne hm hk hq heq] at h
    exact Or.inr ⟨heq, h⟩

theorem inDom_insertBeq {cf : List (VarMap × VarMap)} {s k : VarMap} {v : VarMap}
    (hm : MWFk cf) (hk : NodupK k) (hs : NodupK s) (h : InDom cf s) :
    InDom (insertBeq cf k v) s := by
  by_cases heq : LookupEq s k
  · exact ⟨v, lookupBeq_insertBeq_eq hm hk hs heq⟩
  · obtain ⟨p, hp⟩ := h
    exact ⟨p, by rw [lookupBeq_insertBeq_ne hm hk hs heq]; exact hp⟩

theorem inDom_insertBeq_self {cf : List (VarMap × VarMap)} {k : VarMap} {v : VarMap}
    (hm : MWFk cf) (hk : NodupK k) : InDom (insertBeq cf k v) k :=
  ⟨v, lookupBeq_insertBeq_eq hm hk hk (lookupEq_refl k)⟩

theorem popMin_mem {l : List PNode} {x : PNode} {rest : List PNode}
    (h : popMin l = some (x, rest)) : x ∈ l := by
  induction l generalizing x rest with
  | nil => cases h
  | cons y ys ih =>
    unfold popMin at h
    rcases hp : popMin ys with _ | q
    · simp only [hp, Option.some.injEq, Prod.mk.injEq] at h
      rw [← h.1]
      exact List.mem_cons_self _ _
    · obtain ⟨m, r⟩ := q
      simp only [hp] at h
      by_cases hle : y.f ≤ m.f
      · rw [if_pos hle] at h
        simp only [Option.some.injEq, Prod.mk.injEq] at h
        rw [← h.1]
        exact List.mem_cons_self _ _
      · rw [if_neg hle] at h
        simp only [Option.some.injEq, Prod.mk.injEq] at h
        rw [← h.1]
        exact List.mem_cons_of_mem _ (ih hp)

theorem popMin_rest_mem {l : List PNode} {x : PNode} {rest : List PNode}
    (h : popMin l = some (x, rest)) : ∀ y ∈ rest, y ∈ l := by
  induction l generalizing x rest with
  | nil => cases h
  | cons z ys ih =>
    unfold popMin at h
    rcases hp : popMin ys with _ | q
    · simp only [hp, Option.some.injEq, Prod.mk.injEq] at h
      rw [← h.2]
      intro y hy
      cases hy
    · obtain ⟨m, r⟩ := q
      simp only [hp] at h
      by_cases hle : z.f ≤ m.f
      · rw [if_pos hle] at h
        simp only [Option.some.injEq, Prod.mk.injEq] at h
        rw [← h.2]
        intro y hy
        exact List.mem_cons_of_mem _ hy
      · rw [if_neg hle] at h
        simp only [Option.some.injEq, Prod.mk.injEq] at h
        rw [← h.2]
        intro y hy
        rcases List.mem_cons.mp hy with rfl | hy'
        · exact List.mem_cons_self _ _
        · exact List.mem_cons_of_mem _ (ih hp y hy')

theorem mem_getValidTransitions {s : VarMap} {actions : List Action}
    {t : VarMap × ℚ × Action} (h : t ∈ getValidTransitions s actions) :
    t.2.2 ∈ actions ∧ t.2.1 = t.2.2.cost ∧ t.2.2.can_execute s = true ∧
      t.1 = t.2.2.apply_effect s := by
  induction actions with
  | nil => cases h
  | cons a rest ih =>
    unfold getValidTransitions at h
    by_cases hc : a.can_execute s = true
    · rw [if_pos hc] at h
      rcases List.mem_cons.mp h with rfl | h'
      · exact ⟨List.mem_cons_self _ _, rfl, hc, rfl⟩
      · obtain ⟨h1, h2, h3, h4⟩ := ih h'
        exact ⟨List.mem_cons_of_mem _ h1, h2, h3, h4⟩
    · rw [if_neg hc] at h
      obtain ⟨h1, h2, h3, h4⟩ := ih h
      exact ⟨List.mem_cons_of_mem _ h1, h2, h3, h4⟩

theorem costSum_nil : costSum [] = 0 := rfl

theorem costSum_append_one (l : List Action) (a : Action) :
    costSum (l ++ [a]) = costSum l + a.cost := by
  simp [costSum]

theorem runActions_append_one (s : VarMap) (acts : List Action) (a : Action) :
    runActions s (acts ++ [a]) = a.apply_effect (runActions s acts) := by
  induction acts generalizing s with
  | nil => rfl
  | cons b rest ih =>
    show runActions (b.apply_effect s) (rest ++ [a]) = _
    rw [ih]
    rfl

theorem validSeq_append_one {s : VarMap} {acts : List Action} {a : Action}
    (hv : validSeq s acts = true) (hc : a.can_execute (runActions s acts) = true) :
    validSeq s (acts ++ [a]) = true := by
  induction acts generalizing s with
  | nil =>
    have hc' : a.can_execute s = true := hc
    simp [validSeq, hc']
  | cons b rest ih =>
    rw [List.cons_append]
    unfold validSeq at hv ⊢
    simp only [Bool.and_eq_true] at hv ⊢
    exact ⟨hv.1, ih hv.2 hc⟩

theorem reconstruct_cost {cf : List (VarMap × VarMap)} {atk : List (VarMap × Action)}
    {fl : Nat} {cur : VarMap} {acts : List Action} {c : ℚ}
    (h : reconstruct fl cf atk cur = some (acts, c)) : c = costSum acts := by
  induction fl generalizing cur acts c with
  | zero => cases h
  | succ fl ih =>
    unfold reconstruct at h
    rcases hcf : lookupBeq cf cur with _ | prev
    · simp only [hcf, Option.some.injEq, Prod.mk.injEq] at h
      rw [← h.1, ← h.2, costSum_nil]
    · simp only [hcf] at h
      rcases hat : lookupBeq atk cur with _ | a
      · simp only [hat] at h
        exact ih h
      · simp only [hat] at h
        rcases hr : reconstruct fl cf atk prev with _ | p
        · simp only [hr, Option.map] at h
          exact Option.noConfusion h
        · obtain ⟨acts', c'⟩ := p
          simp only [hr, Option.map, Option.some.injEq, Prod.mk.injEq] at h
          rw [← h.1, ← h.2, costSum_append_one, ih hr]

end Goap

namespace Goap

theorem reconstruct_valid {init : VarMap} {actions : List Action}
    {cf : List (VarMap × VarMap)} {atk : List (VarMap × Action)}
    (hinv : CFInv actions cf atk) (hci : CFInit init cf) :
    ∀ (fl : Nat) (cur : VarMap) (acts : List Action) (c : ℚ), NodupK cur →
      (LookupEq cur init ∨ InDom cf cur) →
      reconstruct fl cf atk cur = some (acts, c) →
      validSeq init acts = true ∧ LookupEq (runActions init acts) cur := by
  intro fl
  induction fl with
  | zero =>
    intro cur acts c _ _ h
    cases h
  | succ fl ih =>
    intro cur acts c hnd hdisj h
    unfold reconstruct at h
    rcases hcf : lookupBeq cf cur with _ | prev
    · simp only [hcf, Option.some.injEq, Prod.mk.injEq] at h
      obtain ⟨h1, _⟩ := h
      rw [← h1]
      have hinit : LookupEq cur init := by
        rcases hdisj with hinit | ⟨p, hp⟩
        · exact hinit
        · rw [hp] at hcf
          cases hcf
      exact ⟨rfl, lookupEq_symm hinit⟩
    · simp only [hcf] at h
      obtain ⟨hndp, a, hat, hmem, hcan, happ⟩ := hinv cur prev hnd hcf
      simp only [hat] at h
      rcases hr : reconstruct fl cf atk prev with _ | p
      · simp only [hr, Option.map] at h
        exact Option.noConfusion h
      · obtain ⟨acts', c'⟩ := p
        simp only [hr, Option.map, Option.some.injEq, Prod.mk.injEq] at h
        obtain ⟨h1, _⟩ := h
        rw [← h1]
        have hdisj' := hci cur prev hnd hcf
        obtain ⟨hv', hrun'⟩ := ih prev acts' c' hndp hdisj' hr
        constructor
        · apply validSeq_append_one hv'
          rw [can_execute_congr a hrun']
          exact hcan
        · rw [runActions_append_one]
          exact lookupEq_trans (apply_effect_congr a hrun') happ

theorem expand_inv {goal : Goal} {init cur : VarMap} {actions : List Action}
    {curG : WithTop ℚ} :
    ∀ (ts : List (VarMap × ℚ × Action)) (fr fr' : Frontier),
      (∀ t ∈ ts, t.2.2 ∈ actions ∧ t.2.2.can_execute cur = true ∧
        t.1 = t.2.2.apply_effect cur) →
      NodupK cur → (LookupEq cur init ∨ InDom fr.cf cur) →
      MWFk fr.cf → MWFk fr.atk → CFInv actions fr.cf fr.atk → CFInit init fr.cf →
      OpenWF init fr.cf fr.openl →
      expand goal cur curG ts fr = .ok fr' →
      MWFk fr'.cf ∧ MWFk fr'.atk ∧ CFInv actions fr'.cf fr'.atk ∧ CFInit init fr'.cf ∧
        OpenWF init fr'.cf fr'.openl := by
  intro ts
  induction ts with
  | nil =>
    intro fr fr' _ _ _ h1 h2 h3 h4 h5 hex
    unfold expand at hex
    have : fr = fr' := by
      injection hex
    rw [← this]
    exact ⟨h1, h2, h3, h4, h5⟩
  | cons t ts ih =>
    intro fr fr' hts hnd hdisj h1 h2 h3 h4 h5 hex
    obtain ⟨next, cost, action⟩ := t
    have hhead := hts (next, cost, action) (List.mem_cons_self _ _)
    obtain ⟨hmem, hcan, hnext⟩ := hhead
    dsimp only at hmem hcan hnext
    have htail : ∀ t ∈ ts, t.2.2 ∈ actions ∧ t.2.2.can_execute cur = true ∧
        t.1 = t.2.2.apply_effect cur := fun t ht => hts t (List.mem_cons_of_mem _ ht)
    have hndn : NodupK next := by
      rw [hnext]
      exact NodupK_apply_effect action cur hnd
    unfold expand at hex
    rcases hh : heuristic next goal.desired_state with e | hval
    · simp only [hh] at hex
      cases hex
    · simp only [hh] at hex
      by_cases hlt : (curG + ((cost : ℚ) : WithTop ℚ)) < (lookupBeq fr.gs next).getD ⊤
      · rw [if_pos hlt] at hex
        refine ih _ fr' htail hnd ?_ ?_ ?_ ?_ ?_ ?_ hex
        · rcases hdisj with hinit | hdom
          · exact Or.inl hinit
          · exact Or.inr (inDom_insertBeq h1 hndn hnd hdom)
        · exact MWFk_insertBeq h1 hndn
        · exact MWFk_insertBeq h2 hndn
        · intro s p hs hp
          rcases lookupBeq_insertBeq_cases h1 hndn hs hp with ⟨heq, hpv⟩ | ⟨hne, hold⟩
          · subst hpv
            refine ⟨hnd, action, ?_, hmem, hcan, ?_⟩
            · exact lookupBeq_insertBeq_eq h2 hndn hs heq
            · rw [← hnext]
              exact lookupEq_symm heq
          · obtain ⟨hndp, a, hata, hamem, hacan, haapp⟩ := h3 s p hs hold
            refine ⟨hndp, a, ?_, hamem, hacan, haapp⟩
            rw [lookupBeq_insertBeq_ne h2 hndn hs hne]
            exact hata
        · intro s p hs hp
          rcases lookupBeq_insertBeq_cases h1 hndn hs hp with ⟨heq, hpv⟩ | ⟨hne, hold⟩
          · subst hpv
            rcases hdisj with hinit | hdom
            · exact Or.inl hinit
            · exact Or.inr (inDom_insertBeq h1 hndn hnd hdom)
          · have hndp := (h3 s p hs hold).1
            rcases h4 s p hs hold with hinit | hdom
            · exact Or.inl hinit
            · exact Or.inr (inDom_insertBeq h1 hndn hndp hdom)
        · intro n hn
          rcases List.mem_append.mp hn with hmem' | hsing
          · obtain ⟨hnds, hd⟩ := h5 n hmem'
            refine ⟨hnds, ?_⟩
            rcases hd with hinit | hdom
            · exact Or.inl hinit
            · exact Or.inr (inDom_insertBeq h1 hndn hnds hdom)
          · rcases List.mem_singleton.mp hsing with rfl
            exact ⟨hndn, Or.inr (inDom_insertBeq_self h1 hndn)⟩
      · rw [if_neg hlt] at hex
        exact ih fr fr' htail hnd hdisj h1 h2 h3 h4 h5 hex

end Goap

namespace Goap

theorem planLoop_sound {goal : Goal} {init : VarMap} {actions : List Action} :
    ∀ (fuel : Nat) (fr : Frontier) (pl : Plan),
      MWFk fr.cf → MWFk fr.atk → CFInv actions fr.cf fr.atk → CFInit init fr.cf →
      OpenWF init fr.cf fr.openl →
      planLoop goal actions fuel fr = some (.ok pl) →
      validSeq init pl.actions = true ∧
        satisfies (runActions init pl.actions) goal.desired_state = true := by
  intro fuel
  induction fuel with
  | zero =>
    intro fr pl _ _ _ _ _ h
    cases h
  | succ fuel ih =>
    intro fr pl h1 h2 h3 h4 h5 h
    unfold planLoop at h
    rcases hpop : popMin fr.openl with _ | q
    · simp only [hpop] at h
      cases h
    · obtain ⟨cur, rest⟩ := q
      simp only [hpop] at h
      obtain ⟨hndc, hdisjc⟩ := h5 cur (popMin_mem hpop)
      by_cases hsat : goal.is_satisfied cur.state = true
      · rw [if_pos hsat] at h
        rcases hrec : reconstruct (fr.cf.length + 1) fr.cf fr.atk cur.state with _ | p
        · simp only [hrec] at h
          cases h
        · obtain ⟨acts, c⟩ := p
          simp only [hrec, Option.some.injEq] at h
          have hpl : pl = ⟨acts, c⟩ := by
            have := Except.ok.inj h
            exact this.symm
          subst hpl
          obtain ⟨hv, hrun⟩ :=
            reconstruct_valid h3 h4 (fr.cf.length + 1) cur.state acts c hndc hdisjc hrec
          refine ⟨hv, ?_⟩
          show satisfies (runActions init acts) goal.desired_state = true
          rw [satisfies_congr _ _ hrun]
          exact hsat
      · rw [if_neg hsat] at h
        rcases hex : expand goal cur.state ((lookupBeq fr.gs cur.state).getD ⊤)
            (getValidTransitions cur.state actions) ⟨rest, fr.cf, fr.atk, fr.gs⟩
          with e | fr2
        · simp only [hex] at h
          cases h
        · simp only [hex] at h
          have hts : ∀ t ∈ getValidTransitions cur.state actions,
              t.2.2 ∈ actions ∧ t.2.2.can_execute cur.state = true ∧
                t.1 = t.2.2.apply_effect cur.state := by
            intro t ht
            obtain ⟨ha, _, hc, hn⟩ := mem_getValidTransitions ht
            exact ⟨ha, hc, hn⟩
          have h5' : OpenWF init fr.cf rest := by
            intro n hn
            exact h5 n (popMin_rest_mem hpop n hn)
          obtain ⟨g1, g2, g3, g4, g5⟩ :=
            expand_inv (getValidTransitions cur.state actions)
              ⟨rest, fr.cf, fr.atk, fr.gs⟩ fr2 hts hndc hdisjc h1 h2 h3 h4 h5' hex
          exact ih fr2 pl g1 g2 g3 g4 g5 h

theorem planLoop_cost {goal : Goal} {actions : List Action} :
    ∀ (fuel : Nat) (fr : Frontier) (pl : Plan),
      planLoop goal actions fuel fr = some (.ok pl) →
      pl.cost = costSum pl.actions := by
  intro fuel
  induction fuel with
  | zero =>
    intro fr pl h
    cases h
  | succ fuel ih =>
    intro fr pl h
    unfold planLoop at h
    rcases hpop : popMin fr.openl with _ | q
    · simp only [hpop] at h
      cases h
    · obtain ⟨cur, rest⟩ := q
      simp only [hpop] at h
      by_cases hsat : goal.is_satisfied cur.state = true
      · rw [if_pos hsat] at h
        rcases hrec : reconstruct (fr.cf.length + 1) fr.cf fr.atk cur.state with _ | p
        · simp only [hrec] at h
          cases h
        · obtain ⟨acts, c⟩ := p
          simp only [hrec, Option.some.injEq] at h
          have hpl : pl = ⟨acts, c⟩ := (Except.ok.inj h).symm
          subst hpl
          exact reconstruct_cost hrec
      · rw [if_neg hsat] at h
        rcases hex : expand goal cur.state ((lookupBeq fr.gs cur.state).getD ⊤)
            (getValidTransitions cur.state actions) ⟨rest, fr.cf, fr.atk, fr.gs⟩
          with e | fr2
        · simp only [hex] at h
          cases h
        · simp only [hex] at h
          exact ih fr2 pl h

theorem planFuel_sound {fuel : Nat} {init : VarMap} {goal : Goal}
    {actions : List Action} {pl : Plan} (hnd : NodupK init)
    (h : planFuel fuel init goal actions = some (.ok pl)) :
    validSeq init pl.actions = true ∧
      satisfies (runActions init pl.actions) goal.desired_state = true := by
  unfold planFuel at h
  rcases hh : heuristic init goal.desired_state with e | h0
  · simp only [hh] at h
    cases h
  · simp only [hh] at h
    refine planLoop_sound fuel _ pl ?_ ?_ ?_ ?_ ?_ h
    · intro p hp
      cases hp
    · intro p hp
      cases hp
    · intro s p _ hp
      cases hp
    · intro s p _ hp
      cases hp
    · intro n hn
      rcases List.mem_singleton.mp hn with rfl
      exact ⟨hnd, Or.inl (lookupEq_refl init)⟩

theorem planFuel_cost {fuel : Nat} {init : VarMap} {goal : Goal}
    {actions : List Action} {pl : Plan}
    (h : planFuel fuel init goal actions = some (.ok pl)) :
    pl.cost = costSum pl.actions := by
  unfold planFuel at h
  rcases hh : heuristic init goal.desired_state with e | h0
  · simp only [hh] at h
    cases h
  · simp only [hh] at h
    exact planLoop_cost fuel _ pl h

end Goap

namespace Goap

theorem expand_reach {goal : Goal} {init cur : VarMap} {actions : List Action}
    {curG : WithTop ℚ} :
    ∀ (ts : List (VarMap × ℚ × Action)) (fr fr' : Frontier),
      (∀ t ∈ ts, t.2.2 ∈ actions ∧ t.2.2.can_execute cur = true ∧
        t.1 = t.2.2.apply_effect cur) →
      Reach init actions cur →
      (∀ n ∈ fr.openl, Reach init actions n.state) →
      expand goal cur curG ts fr = .ok fr' →
      ∀ n ∈ fr'.openl, Reach init actions n.state := by
  intro ts
  induction ts with
  | nil =>
    intro fr fr' _ _ hopen hex
    unfold expand at hex
    have : fr = fr' := by injection hex
    rw [← this]
    exact hopen
  | cons t ts ih =>
    intro fr fr' hts hreach hopen hex
    obtain ⟨next, cost, action⟩ := t
    have hhead := hts (next, cost, action) (List.mem_cons_self _ _)
    obtain ⟨hmem, hcan, hnext⟩ := hhead
    dsimp only at hmem hcan hnext
    have htail : ∀ t ∈ ts, t.2.2 ∈ actions ∧ t.2.2.can_execute cur = true ∧
        t.1 = t.2.2.apply_effect cur := fun t ht => hts t (List.mem_cons_of_mem _ ht)
    have hreachn : Reach init actions next := by
      rw [hnext]
      exact Reach.step hreach hmem hcan
    unfold expand at hex
    rcases hh : heuristic next goal.desired_state with e | hval
    · simp only [hh] at hex
      cases hex
    · simp only [hh] at hex
      by_cases hlt : (curG + ((cost : ℚ) : WithTop ℚ)) < (lookupBeq fr.gs next).getD ⊤
      · rw [if_pos hlt] at hex
        refine ih _ fr' htail hreach ?_ hex
        intro n hn
        rcases List.mem_append.mp hn with hmem' | hsing
        · exact hopen n hmem'
        · rcases List.mem_singleton.mp hsing with rfl
          exact hreachn
      · rw [if_neg hlt] at hex
        exact ih fr fr' htail hreach hopen hex

theorem expand_no_error {goal : Goal} {init cur : VarMap} {actions : List Action}
    {curG : WithTop ℚ} :
    ∀ (ts : List (VarMap × ℚ × Action)) (fr : Frontier) (e : PlannerError),
      (∀ t ∈ ts, t.2.2 ∈ actions ∧ t.2.2.can_execute cur = true ∧
        t.1 = t.2.2.apply_effect cur) →
      Reach init actions cur →
      (∀ s, Reach init actions s → ∃ n, heuristic s goal.desired_state = .ok n) →
      expand goal cur curG ts fr ≠ .error e := by
  intro ts
  induction ts with
  | nil =>
    intro fr e _ _ _ hex
    cases hex
  | cons t ts ih =>
    intro fr e hts hreach hok hex
    obtain ⟨next, cost, action⟩ := t
    have hhead := hts (next, cost, action) (List.mem_cons_self _ _)
    obtain ⟨hmem, hcan, hnext⟩ := hhead
    dsimp only at hmem hcan hnext
    have htail : ∀ t ∈ ts, t.2.2 ∈ actions ∧ t.2.2.can_execute cur = true ∧
        t.1 = t.2.2.apply_effect cur := fun t ht => hts t (List.mem_cons_of_mem _ ht)
    have hreachn : Reach init actions next := by
      rw [hnext]
      exact Reach.step hreach hmem hcan
    unfold expand at hex
    rcases hh : heuristic next goal.desired_state with e' | hval
    · obtain ⟨n, hn⟩ := hok next hreachn
      rw [hh] at hn
      cases hn
    · simp only [hh] at hex
      by_cases hlt : (curG + ((cost : ℚ) : WithTop ℚ)) < (lookupBeq fr.gs next).getD ⊤
      · rw [if_pos hlt] at hex
        exact ih _ e htail hreach hok hex
      · rw [if_neg hlt] at hex
        exact ih fr e htail hreach hok hex

theorem planLoop_unreachable {goal : Goal} {init : VarMap} {actions : List Action}
    (H1 : ∀ s, Reach init actions s → satisfies s goal.desired_state = false)
    (H2 : ∀ s, Reach init actions s → ∃ n, heuristic s goal.desired_state = .ok n) :
    ∀ (fuel : Nat) (fr : Frontier) (r : Except PlannerError Plan),
      (∀ n ∈ fr.openl, Reach init actions n.state) →
      planLoop goal actions fuel fr = some r → r = .error .NoPlanFound := by
  intro fuel
  induction fuel with
  | zero =>
    intro fr r _ h
    cases h
  | succ fuel ih =>
    intro fr r hopen h
    unfold planLoop at h
    rcases hpop : popMin fr.openl with _ | q
    · simp only [hpop, Option.some.injEq] at h
      exact h.symm
    · obtain ⟨cur, rest⟩ := q
      simp only [hpop] at h
      have hreachc : Reach init actions cur.state := hopen cur (popMin_mem hpop)
      have hsat : ¬ goal.is_satisfied cur.state = true := by
        show ¬ satisfies cur.state goal.desired_state = true
        rw [H1 cur.state hreachc]
        simp
      rw [if_neg hsat] at h
      rcases hex : expand goal cur.state ((lookupBeq fr.gs cur.state).getD ⊤)
          (getValidTransitions cur.state actions) ⟨rest, fr.cf, fr.atk, fr.gs⟩
        with e | fr2
      · have hts : ∀ t ∈ getValidTransitions cur.state actions,
            t.2.2 ∈ actions ∧ t.2.2.can_execute cur.state = true ∧
              t.1 = t.2.2.apply_effect cur.state := by
          intro t ht
          obtain ⟨ha, _, hc, hn⟩ := mem_getValidTransitions ht
          exact ⟨ha, hc, hn⟩
        exact absurd hex (expand_no_error _ _ e hts hreachc H2)
      · simp only [hex] at h
        have hopen2 : ∀ n ∈ fr2.openl, Reach init actions n.state := by
          have hts : ∀ t ∈ getValidTransitions cur.state actions,
              t.2.2 ∈ actions ∧ t.2.2.can_execute cur.state = true ∧
                t.1 = t.2.2.apply_effect cur.state := by
            intro t ht
            obtain ⟨ha, _, hc, hn⟩ := mem_getValidTransitions ht
            exact ⟨ha, hc, hn⟩
          refine expand_reach _ _ fr2 hts hreachc ?_ hex
          intro n hn
          exact hopen n (popMin_rest_mem hpop n hn)
        exact ih fr2 r hopen2 h

theorem planFuel_unreachable {fuel : Nat} {init : VarMap} {goal : Goal}
    {actions : List Action} {r : Except PlannerError Plan}
    (H1 : ∀ s, Reach init actions s → satisfies s goal.desired_state = false)
    (H2 : ∀ s, Reach init actions s → ∃ n, heuristic s goal.desired_state = .ok n)
    (h : planFuel fuel init goal actions = some r) : r = .error .NoPlanFound := by
  unfold planFuel at h
  rcases hh : heuristic init goal.desired_state with e | h0
  · obtain ⟨n, hn⟩ := H2 init Reach.refl
    rw [hh] at hn
    cases hn
  · simp only [hh] at h
    refine planLoop_unreachable H1 H2 fuel _ r ?_ h
    intro n hn
    rcases List.mem_singleton.mp hn with rfl
    exact Reach.refl

end Goap

namespace Goap

/-- C1: for every initial state, goal, and action list, if `Planner::plan`
returns a `Plan`, then executing the plan's actions in their returned order
starting from the initial state is valid - each action's preconditions are
satisfied by the state it is applied to - and the final resulting state
satisfies the goal.  (`planFuel` is the fuelled loop; a returning run of the
Rust `plan` is `some` at every sufficient fuel.  The `NodupK` hypothesis
records that a Rust `HashMap` never holds duplicate keys.) -/
theorem planner_plan_sound (fuel : Nat) (init : VarMap) (goal : Goal)
    (actions : List Action) (p : Plan) (hnd : NodupK init)
    (h : planFuel fuel init goal actions = some (.ok p)) :
    validSeq init p.actions = true ∧
      satisfies (runActions init p.actions) goal.desired_state = true :=
  planFuel_sound hnd h

/-- C2 (amended part): every returned plan's `cost` field equals the sum of
the costs of its actions. -/
theorem planner_plan_cost_eq_sum (fuel : Nat) (init : VarMap) (goal : Goal)
    (actions : List Action) (p : Plan)
    (h : planFuel fuel init goal actions = some (.ok p)) :
    p.cost = costSum p.actions :=
  planFuel_cost h

/-- C3: `satisfies(conditions)` is true exactly when every variable the
conditions mention is present with a same-variant value meeting it
(`Bool`/`Text` by equality, `Integer`/`Decimal` by `current ≥ required`,
as `meets` spells out); a missing variable or variant mismatch makes it
false, and the function is total (so it never raises). -/
theorem satisfies_spec (s c : VarMap) :
    (satisfies s c = true ↔
      ∀ k req, (k, req) ∈ c → ∃ cur, wsGet s k = some cur ∧ meets cur req) ∧
      (satisfies s c = true ∨ satisfies s c = false) :=
  ⟨satisfies_iff_meets s c, Bool.eq_false_or_eq_true (satisfies s c)⟩

/-- C4 (amended): `distance` returns 0 on equal values; for `Bool`/`Text` it
is 0 on equality and 1 otherwise; for `Integer`/`Decimal` it returns the
absolute value of the 64-bit wrapped difference, which equals the absolute
difference of the underlying integers whenever that difference is at most
`2^63` in magnitude; and a variant mismatch is a failure (a panic in
`src/state.rs`), never a coercion. -/
theorem distance_spec :
    (∀ a : StateVar, StateVar.distance a a = some 0) ∧
    (∀ b1 b2 : Bool, StateVar.distance (.Bool b1) (.Bool b2) =
      some (if b1 = b2 then 0 else 1)) ∧
    (∀ s1 s2 : String, StateVar.distance (.Enum s1) (.Enum s2) =
      some (if s1 = s2 then 0 else 1)) ∧
    (∀ x y : Int, inI64 x → inI64 y → (x - y).natAbs ≤ 2 ^ 63 →
      StateVar.distance (.I64 x) (.I64 y) = some (x - y).natAbs) ∧
    (∀ x y : Int, inI64 x → inI64 y → (x - y).natAbs ≤ 2 ^ 63 →
      StateVar.distance (.F64 x) (.F64 y) = some (x - y).natAbs) ∧
    (∀ a b : StateVar, ¬ sameVariant a b → StateVar.distance a b = none) :=
  ⟨distance_self,
   fun _ _ => rfl,
   fun _ _ => rfl,
   distance_int_exact,
   distance_f64_exact,
   fun a b h => (distance_none_iff a b).mpr h⟩

/-- C5: an `Add` or `Subtract` whose target variable is absent or holds a
non-`Integer`/non-`Decimal` value leaves the state entirely unchanged - a
total, silent no-op, never an error - while a `Set` operation always inserts
or replaces the value (and touches no other key). -/
theorem apply_noop_and_set_spec (m : VarMap) (key : String) :
    (∀ n : Int, numericTarget m key = false →
      applyOp m key (.Add n) = m ∧ applyOp m key (.Subtract n) = m) ∧
    (∀ v : StateVar, wsGet (applyOp m key (.Set v)) key = some v) ∧
    (∀ (v : StateVar) (q : String), ¬ key = q →
      wsGet (applyOp m key (.Set v)) q = wsGet m q) :=
  ⟨fun n h => ⟨applyOp_add_noop m key n h, applyOp_subtract_noop m key n h⟩,
   fun v => applyOp_set_get m key v,
   fun v q h => applyOp_set_get_other m key v q h⟩

/-- C6: the planner's heuristic fails exactly on a same-named variant
mismatch, its `IncompatibleStateTypes` error identifies a genuinely
mismatching variable, `plan` propagates a heuristic failure as that
recoverable error, and spec Scenario D (goal wants `value` as text, the only
action produces it as an integer) yields `IncompatibleStateTypes("value")`,
not `NoPlanFound`. -/
theorem heuristic_incompatible_spec :
    (∀ (s g : VarMap) (k : String),
      heuristic s g = .error (.IncompatibleStateTypes k) →
      ∃ req cur, (k, req) ∈ g ∧ wsGet s k = some cur ∧ ¬ sameVariant cur req) ∧
    (∀ s g : VarMap, (∃ n, heuristic s g = .ok n) ↔
      ∀ k req cur, (k, req) ∈ g → wsGet s k = some cur → sameVariant cur req) ∧
    (∀ (fuel : Nat) (init : VarMap) (goal : Goal) (actions : List Action)
      (e : PlannerError), heuristic init goal.desired_state = .error e →
      planFuel fuel init goal actions = some (.error e)) ∧
    planFuel 5 [] goalD [actD] =
      some (.error (.IncompatibleStateTypes ("value"))) := by
  refine ⟨fun s g k h => heuristic_error_mismatch h, heuristic_ok_iff,
    planFuel_init_error, ?_⟩
  decide

/-- The states reachable in spec Scenario C: the initial state and the one
state `get_wood` produces. -/
theorem reachC_cases : ∀ s, Reach wsC [getWoodC] s → s = wsC ∨ s = wsC1 := by
  intro s h
  induction h with
  | refl => exact Or.inl rfl
  | @step s' a hr hmem hcan ih =>
    rcases List.mem_singleton.mp hmem with rfl
    rcases ih with rfl | rfl
    · exact Or.inr (by decide)
    · exact Or.inr (by decide)

/-- C7: `plan` returns `NoPlanFound` exactly when the open set is exhausted
without a popped state satisfying the goal - the loop's empty-open case
returns it unconditionally (second conjunct) - and for any inputs where no
action sequence reaches a goal-satisfying state and no variant mismatch
occurs during heuristic evaluation, any result the call returns is
`NoPlanFound` (a run on an infinite, goal-free search space never returns at
all, which `planFuel = none` models). -/
theorem plan_noplanfound_spec (fuel : Nat) (init : VarMap) (goal : Goal)
    (actions : List Action) (r : Except PlannerError Plan)
    (H1 : ∀ s, Reach init actions s → satisfies s goal.desired_state = false)
    (H2 : ∀ s, Reach init actions s → ∃ n, heuristic s goal.desired_state = .ok n)
    (h : planFuel fuel init goal actions = some r) :
    r = .error .NoPlanFound ∧
      (∀ (fuel' : Nat) (cf : List (VarMap × VarMap)) (atk : List (VarMap × Action))
        (gs : List (VarMap × WithTop ℚ)),
        planLoop goal actions (fuel' + 1) ⟨[], cf, atk, gs⟩ =
          some (.error .NoPlanFound)) :=
  ⟨planFuel_unreachable H1 H2 h, fun _ _ _ _ => rfl⟩

/-- C9: two states holding exactly the same name-to-value mapping are equal
(`wsBeq`, the `HashMap` equality Rust derives for `WorldState`) and feed the
hasher identical streams (`hashStream`, the sorted key-value sequence of the
manual `Hash` impl), whatever the insertion order that built them. -/
theorem state_eq_hash_order_independent (s t : VarMap) (hs : NodupK s)
    (ht : NodupK t) (h : ∀ k, wsGet s k = wsGet t k) :
    wsBeq s t = true ∧ hashStream s = hashStream t :=
  ⟨wsBeq_of_lookupEq hs ht h, hashStream_eq_of_lookupEq hs ht h⟩

/-- C10: `apply` never removes a variable: every name mapped before is still
mapped afterwards, and the key set after `apply(effects)` is exactly the
original keys plus the keys of `Set` operations; consequently `apply_effect`
keeps every variable of its input state. -/
theorem apply_never_removes (m : VarMap) (changes : List (String × StateOperation)) :
    (∀ k, wsGet m k ≠ none → wsGet (applyW m changes) k ≠ none) ∧
    (∀ k, wsGet (applyW m changes) k ≠ none ↔
      (wsGet m k ≠ none ∨ ∃ v, (k, StateOperation.Set v) ∈ changes)) ∧
    (∀ (a : Action) (k : String), wsGet m k ≠ none →
      wsGet (a.apply_effect m) k ≠ none) :=
  ⟨fun k h => (wsGet_applyW_ne_none_iff m changes k).mpr (Or.inl h),
   fun k => wsGet_applyW_ne_none_iff m changes k,
   fun a k h => (wsGet_applyW_ne_none_iff m a.effects k).mpr (Or.inl h)⟩

end Goap

namespace Goap

section

attribute [local semireducible] Rat.add

/-- C2 counterexample: on `{x: 0}` with goal `x ≥ 10` and actions
`exact_step` (cost 10, `Set x = 10`) and `overshoot` (cost 1, `Add x += 100`),
`plan` returns `[exact_step]` at cost 10 although `[overshoot]` is a valid
goal-reaching sequence of cost 1: the overshooting successor's inadmissible
heuristic (`|100 - 10| = 90`) pushes it behind the expensive exact step, so
the returned cost is not minimal.  (All scores involved are small integers,
exactly representable in `f64`, so the rational model computes the same run
as the Rust code.) -/
theorem planner_plan_not_minimal :
    planFuel 10 wsCE goalCE [exactCE, overCE] = some (.ok ⟨[exactCE], 10⟩) ∧
      validSeq wsCE [overCE] = true ∧
      satisfies (runActions wsCE [overCE]) goalCE.desired_state = true ∧
      costSum [overCE] = 1 ∧ (1 : ℚ) < 10 :=
  ⟨by decide, by decide, by decide, by decide, by decide⟩

/-- C1 witness: spec Scenario A - from `{has_axe: true, has_wood: false}`
with goal `{has_wood: true}`, `plan` returns `[move_to_tree, chop_tree]` at
cost 3, and that sequence is executable and reaches the goal. -/
theorem planner_plan_sound_witness :
    NodupK wsA ∧
      planFuel 10 wsA goalA [moveA, chopA] = some (.ok ⟨[moveA, chopA], 3⟩) ∧
      (validSeq wsA (Plan.actions ⟨[moveA, chopA], 3⟩) = true ∧
        satisfies (runActions wsA (Plan.actions ⟨[moveA, chopA], 3⟩))
          goalA.desired_state = true) :=
  ⟨by decide, by decide,
    planner_plan_sound 10 wsA goalA [moveA, chopA] ⟨[moveA, chopA], 3⟩
      (by decide) (by decide)⟩

/-- C2 witness: the Scenario A plan's cost field is the sum of its action
costs. -/
theorem planner_plan_cost_eq_sum_witness :
    planFuel 10 wsA goalA [moveA, chopA] = some (.ok ⟨[moveA, chopA], 3⟩) ∧
      Plan.cost ⟨[moveA, chopA], 3⟩ = costSum (Plan.actions ⟨[moveA, chopA], 3⟩) :=
  ⟨by decide,
    planner_plan_cost_eq_sum 10 wsA goalA [moveA, chopA] ⟨[moveA, chopA], 3⟩
      (by decide)⟩

/-- C4 counterexample: at `a = I64(i64::MAX)` and `b = I64(-2)` the true
absolute difference `2^63 + 1` does not fit in `i64`, and
`(*a - *b).unsigned_abs()` yields `2^63 - 1` instead (release profile wraps;
a debug build panics at the same input), so `distance` does not return the
absolute difference of the underlying integers there. -/
theorem distance_overflow_counterexample :
    StateVar.distance (.I64 (2 ^ 63 - 1)) (.I64 (-2)) = some (2 ^ 63 - 1) ∧
      ((2 ^ 63 - 1 : Int) - (-2)).natAbs = 2 ^ 63 + 1 ∧
      ¬ ((2 ^ 63 - 1 : Nat) = 2 ^ 63 + 1) :=
  ⟨by decide, by decide, by decide⟩

/-- C4 witness: the in-range clause of the amended claim at `10` and `3`. -/
theorem distance_spec_witness :
    inI64 10 ∧ inI64 3 ∧ ((10 : Int) - 3).natAbs ≤ 2 ^ 63 ∧
      StateVar.distance (.I64 10) (.I64 3) = some ((10 : Int) - 3).natAbs :=
  ⟨by decide, by decide, by decide,
    distance_spec.2.2.2.1 10 3 (by decide) (by decide) (by decide)⟩

/-- C5 witness: on `{flag: Bool(true)}`, `Add 5`/`Subtract 5` targeting
`flag` leave the state unchanged and `Set I64(2)` replaces the value. -/
theorem apply_noop_and_set_spec_witness :
    numericTarget [(("flag" : String), StateVar.Bool true)] ("flag") = false ∧
      (applyOp [(("flag" : String), StateVar.Bool true)] ("flag")
          (.Add 5) = [(("flag" : String), StateVar.Bool true)] ∧
        applyOp [(("flag" : String), StateVar.Bool true)] ("flag")
          (.Subtract 5) = [(("flag" : String), StateVar.Bool true)]) ∧
      wsGet (applyOp [(("flag" : String), StateVar.Bool true)] ("flag")
        (.Set (StateVar.I64 2))) ("flag") = some (StateVar.I64 2) :=
  ⟨by decide,
    (apply_noop_and_set_spec [(("flag" : String), StateVar.Bool true)] ("flag")).1
      5 (by decide),
    (apply_noop_and_set_spec [(("flag" : String), StateVar.Bool true)] ("flag")).2.1
      (StateVar.I64 2)⟩

/-- C6 witness: a concrete mismatch - the state holds `value` as `I64(5)`
while the goal wants `Enum("gold")` - makes the heuristic fail naming
`value`, and the error does identify a mismatching variable. -/
theorem heuristic_incompatible_spec_witness :
    heuristic [(("value" : String), StateVar.I64 5)]
        [(("value" : String), StateVar.Enum "gold")] =
      .error (.IncompatibleStateTypes ("value")) ∧
      ∃ req cur, (("value" : String), req) ∈
          [(("value" : String), StateVar.Enum "gold")] ∧
        wsGet [(("value" : String), StateVar.I64 5)] ("value") = some cur ∧
        ¬ sameVariant cur req :=
  ⟨by decide,
    heuristic_incompatible_spec.1 [(("value" : String), StateVar.I64 5)]
      [(("value" : String), StateVar.Enum "gold")] ("value") (by decide)⟩

/-- C7 witness: spec Scenario C - initial `{has_wood: false}`, goal
`{has_gold: true}`, single action `get_wood`: no reachable state satisfies
the goal, no heuristic call can mismatch, and the run returns
`NoPlanFound`. -/
theorem plan_noplanfound_spec_witness :
    planFuel 5 wsC goalC [getWoodC] = some (.error .NoPlanFound) ∧
      ((Except.error PlannerError.NoPlanFound : Except PlannerError Plan) =
          .error .NoPlanFound ∧
        (∀ (fuel' : Nat) (cf : List (VarMap × VarMap))
          (atk : List (VarMap × Action)) (gs : List (VarMap × WithTop ℚ)),
          planLoop goalC [getWoodC] (fuel' + 1) ⟨[], cf, atk, gs⟩ =
            some (.error .NoPlanFound))) :=
  ⟨by decide,
    plan_noplanfound_spec 5 wsC goalC [getWoodC] (.error .NoPlanFound)
      (by
        intro s h
        rcases reachC_cases s h with rfl | rfl
        · decide
        · decide)
      (by
        intro s h
        rcases reachC_cases s h with rfl | rfl
        · exact ⟨1, by decide⟩
        · exact ⟨1, by decide⟩)
      (by decide)⟩

/-- C9 witness: the two insertion orders of `{a: Bool(true), b: I64(10)}`
(the repo's own `test_world_state_hash` data) compare equal and hash
identically. -/
theorem state_eq_hash_order_independent_witness :
    NodupK [(("a" : String), StateVar.Bool true), (("b" : String), StateVar.I64 10)] ∧
      NodupK [(("b" : String), StateVar.I64 10), (("a" : String), StateVar.Bool true)] ∧
      (∀ k, wsGet [(("a" : String), StateVar.Bool true), (("b" : String), StateVar.I64 10)] k =
        wsGet [(("b" : String), StateVar.I64 10), (("a" : String), StateVar.Bool true)] k) ∧
      (wsBeq [(("a" : String), StateVar.Bool true), (("b" : String), StateVar.I64 10)]
          [(("b" : String), StateVar.I64 10), (("a" : String), StateVar.Bool true)] = true ∧
        hashStream [(("a" : String), StateVar.Bool true), (("b" : String), StateVar.I64 10)] =
          hashStream [(("b" : String), StateVar.I64 10), (("a" : String), StateVar.Bool true)]) := by
  have hk : ∀ k, wsGet [(("a" : String), StateVar.Bool true), (("b" : String), StateVar.I64 10)] k =
      wsGet [(("b" : String), StateVar.I64 10), (("a" : String), StateVar.Bool true)] k := by
    intro k
    by_cases h1 : ("a" : String) = k
    · by_cases h2 : ("b" : String) = k
      · exact absurd (h1.trans h2.symm) (by decide)
      · simp [wsGet, h1, h2]
    · by_cases h2 : ("b" : String) = k
      · simp [wsGet, h1, h2]
      · simp [wsGet, h1, h2]
  exact ⟨by decide, by decide, hk,
    state_eq_hash_order_independent _ _ (by decide) (by decide) hk⟩

/-- C10 witness: `{x: I64(1)}` under effects `{y: Set Bool(true), x: Add 2}`
keeps `x` mapped, the key set is exactly `{x}` plus the `Set` key `y`, and
`apply_effect` keeps `x`. -/
theorem apply_never_removes_witness :
    wsGet [(("x" : String), StateVar.I64 1)] ("x") ≠ none ∧
      wsGet (applyW [(("x" : String), StateVar.I64 1)]
        [(("y" : String), StateOperation.Set (StateVar.Bool true)),
          (("x" : String), StateOperation.Add 2)]) ("x") ≠ none ∧
      (wsGet (applyW [(("x" : String), StateVar.I64 1)]
          [(("y" : String), StateOperation.Set (StateVar.Bool true)),
            (("x" : String), StateOperation.Add 2)]) ("y") ≠ none ↔
        (wsGet [(("x" : String), StateVar.I64 1)] ("y") ≠ none ∨
          ∃ v, (("y" : String), StateOperation.Set v) ∈
            [(("y" : String), StateOperation.Set (StateVar.Bool true)),
              (("x" : String), StateOperation.Add 2)])) :=
  ⟨by decide,
    (apply_never_removes [(("x" : String), StateVar.I64 1)]
      [(("y" : String), StateOperation.Set (StateVar.Bool true)),
        (("x" : String), StateOperation.Add 2)]).1 ("x") (by decide),
    (apply_never_removes [(("x" : String), StateVar.I64 1)]
      [(("y" : String), StateOperation.Set (StateVar.Bool true)),
        (("x" : String), StateOperation.Add 2)]).2.1 ("y")⟩

end

end Goap
